import Mathlib

/-!
Verification of the doc-graph repository import API against its design
specification.  The Python sources under `apps/api/src` are shallowly
embedded: each relevant function is translated into an executable Lean
definition, and the spec's testable properties are proved or refuted
against those definitions.

Conventions of the embedding:
* Python `str` values that are inspected structurally are `List Char`;
  strings only compared for equality stay `String`.
* Clock readings (`time.time()`, `datetime.utcnow()`) are `Int`.  The
  code uses timestamps only through ordering, equality and adding or
  subtracting a window length, so any linearly ordered instant type is
  adequate; integers keep every definition kernel-evaluable.
* A Redis sorted set whose member is `str(score)` is determined by its
  set of scores, hence `Finset Int` — one entry per distinct timestamp.
* Fallible reads are `Option`; a raised exception that the code catches
  is the `none` / `Except.error` case.
-/

/-! ## Rate limiter (`middleware/rate_limiting.py`) -/

/-- Result dictionary returned by `RateLimiter.is_allowed`. -/
structure RLResult where
  allowed : Bool
  limit : Int
  remaining : Int
  reset_time : Int
  retry_after : Option Int
  deriving DecidableEq

/-- `pipeline.zremrangebyscore(key, 0, now - window)`: drop every stored
timestamp `t` with `0 ≤ t ≤ now - window` from the key's sorted set. -/
def pruneWindow (now window : Int) (s : Finset Int) : Finset Int :=
  s.filter (fun t => ¬(0 ≤ t ∧ t ≤ now - window))

/-- `RateLimiter.is_allowed(key, limit, window)` on the Redis path,
as a pure function of the clock reading `now` and the key's current
sorted set `s`.  The pipeline prunes expired scores, counts the
remainder (`n = results[1]`), and *unconditionally* adds the member
`str(now)` with score `now` (the `zadd` is issued before the count is
compared with the limit).  The `expire` call only shortens the key's
lifetime and never changes a value observed through this model, so it
is not represented.  Returns the result dictionary and the key's new
sorted set. -/
def is_allowed (limit window : Int) (now : Int) (s : Finset Int) :
    RLResult × Finset Int :=
  let pruned := pruneWindow now window s
  let n : Int := pruned.card
  let allowed : Bool := decide (n < limit)
  ({ allowed := allowed
     limit := limit
     remaining := max 0 (limit - n - 1)
     reset_time := now + window
     retry_after := if allowed then none else some window },
   insert now pruned)

/-- The `except` branch of `is_allowed`: when the Redis call raises,
the limiter fails open with `remaining = limit - 1` (not clamped). -/
def failOpen (limit window : Int) (now : Int) : RLResult :=
  { allowed := true
    limit := limit
    remaining := limit - 1
    reset_time := now + window
    retry_after := none }

/-- The key's sorted set after `k` sequential calls to `is_allowed`
with clock readings `t 0, t 1, …, t (k-1)`, starting from an absent
(empty) key. -/
def runState (limit window : Int) (t : ℕ → Int) : ℕ → Finset Int
  | 0 => ∅
  | k + 1 => (is_allowed limit window (t k) (runState limit window t k)).2

/-- The result dictionary of the `(k+1)`-th sequential call. -/
def runResult (limit window : Int) (t : ℕ → Int) (k : ℕ) : RLResult :=
  (is_allowed limit window (t k) (runState limit window t k)).1

/-! ## Python string primitives used by `services/git_service.py`

Python `str` values inspected structurally are embedded as `List Char`.
-/

/-- Python `s.startswith(p)`. -/
def listStartsWith : List Char → List Char → Bool
  | [], _ => true
  | _ :: _, [] => false
  | p :: ps, x :: xs => p = x && listStartsWith ps xs

/-- Python `s.strip()` (ASCII whitespace at both ends). -/
def pyStripWS (l : List Char) : List Char :=
  ((l.dropWhile Char.isWhitespace).reverse.dropWhile Char.isWhitespace).reverse

/-- Python `s.strip(c)` for a single strip character. -/
def pyStripChar (c : Char) (l : List Char) : List Char :=
  ((l.dropWhile (· = c)).reverse.dropWhile (· = c)).reverse

/-- Python `s.split(c)` with an explicit one-character separator:
`"".split(c) = [""]`, and empty fields between adjacent separators are
kept. -/
def splitOnChar (c : Char) : List Char → List (List Char)
  | [] => [[]]
  | x :: xs =>
    match splitOnChar c xs with
    | [] => [[]]
    | y :: ys => if x = c then [] :: y :: ys else (x :: y) :: ys

/-- Python `s.split(c, 1)` when the separator occurs, paired with the
`c in s` test: `none` when the separator is absent. -/
def splitFirstAt (c : Char) : List Char → Option (List Char × List Char)
  | [] => none
  | x :: xs =>
    if x = c then some ([], xs)
    else
      match splitFirstAt c xs with
      | none => none
      | some (a, b) => some (x :: a, b)

/-- `urllib.parse.urlparse(url).path` for a URL that begins with
`https://`: the netloc runs from position 8 up to the first `/`, `?`
or `#`; the path is the remainder starting at that `/` (empty when the
authority is ended by `?`, `#` or the end of the string), cut before
the query/fragment. -/
def httpsPath (url : List Char) : List Char :=
  let rest := url.drop 8
  let afterHost := rest.dropWhile (fun c => ¬(c = '/' ∨ c = '?' ∨ c = '#'))
  match afterHost with
  | '/' :: _ => afterHost.takeWhile (fun c => ¬(c = '?' ∨ c = '#'))
  | _ => []

/-! ## URL validation (`GitService.validate_repository_url`) -/

/-- The `https_patterns` list. -/
def httpsPatterns : List (List Char) :=
  ["https://github.com/".toList, "https://gitlab.com/".toList,
   "https://bitbucket.org/".toList]

/-- The `ssh_patterns` list. -/
def sshPatterns : List (List Char) :=
  ["git@github.com:".toList, "git@gitlab.com:".toList,
   "git@bitbucket.org:".toList]

/-- The browsing-segment tokens rejected inside an HTTPS path. -/
def browsingTokens : List (List Char) :=
  ["tree".toList, "blob".toList, "commit".toList, "releases".toList,
   "tags".toList]

/-- `GitService.validate_repository_url`, translated clause by clause:
empty check, hosting-pattern check, then the HTTPS branch (owner/repo
present and non-empty, no browsing token in any path part, no empty
path part) or the SSH branch (owner/repo after the colon present and
non-empty — the SSH branch has no browsing-token and no empty-tail
checks). -/
def validate_repository_url (url0 : List Char) : Bool :=
  let url := pyStripWS url0
  if url.isEmpty then false
  else if ¬ (httpsPatterns ++ sshPatterns).any
      (fun p => listStartsWith p url) then false
  else if listStartsWith "https://".toList url then
    let path_parts := splitOnChar '/' (pyStripChar '/' (httpsPath url))
    match path_parts with
    | owner :: repo :: _ =>
      if owner.isEmpty || repo.isEmpty then false
      else if path_parts.any (fun part => browsingTokens.contains part)
        then false
      else if path_parts.any (fun part => part.isEmpty) then false
      else true
    | _ => false
  else if sshPatterns.any (fun p => listStartsWith p url) then
    match splitFirstAt ':' url with
    | none => false
    | some (_, path_part) =>
      match splitOnChar '/' (pyStripChar '/' path_part) with
      | owner :: repo :: _ => !owner.isEmpty && !repo.isEmpty
      | _ => false
  else false

/-- Spec-side counterpart of the amended C3 claim, following the
claim's clause structure: a URL matching a recognized HTTPS hosting
pattern is valid iff its path splits into at least two segments, all
segments are non-empty, and no segment is a browsing token; a URL
matching a recognized SSH pattern is valid iff the part after the colon
has at least two segments with non-empty owner and repo (no
browsing-token or empty-tail restriction in the SSH form); every other
URL is invalid. -/
def validateSpec_amended (url0 : List Char) : Bool :=
  let url := pyStripWS url0
  if httpsPatterns.any (fun p => listStartsWith p url) then
    let parts := splitOnChar '/' (pyStripChar '/' (httpsPath url))
    decide (2 ≤ parts.length) &&
      parts.all (fun part => !part.isEmpty) &&
      parts.all (fun part => !browsingTokens.contains part)
  else if sshPatterns.any (fun p => listStartsWith p url) then
    match splitFirstAt ':' url with
    | none => false
    | some (_, path_part) =>
      match splitOnChar '/' (pyStripChar '/' path_part) with
      | owner :: repo :: _ => !owner.isEmpty && !repo.isEmpty
      | _ => false
  else false

/-! ## Filesystem model and repository analysis (`GitService`)

A directory tree as seen by `os.walk`/`os.path` on a case-sensitive
POSIX filesystem.  `size = none` models a file whose `os.path.getsize`
raises (`OSError`/`IOError`); `content = none` models a file whose
`open`/`read` raises (`OSError`/`IOError`/`UnicodeDecodeError`).
`FSList` is a directory listing; real listings never repeat a name, so
`dirs.remove('.git')` (remove first) and pruning every `.git` child
coincide. -/
mutual
inductive FSEntry where
  | file (name : List Char) (size : Option Nat) (content : Option (List Char))
  | dir (name : List Char) (children : FSList)
inductive FSList where
  | nil
  | cons (e : FSEntry) (rest : FSList)
end

/-- The name of a directory entry. -/
def FSEntry.name : FSEntry → List Char
  | .file n _ _ => n
  | .dir n _ => n

/-- The `analyze()` walk inside `GitService._analyze_repository`:
`os.walk` from the repository root, never descending into a `.git`
directory, accumulating `file_count` and `total_size` over the files
whose size can be read and silently skipping the rest. -/
def analyzeWalk : FSList → Nat × Nat
  | .nil => (0, 0)
  | .cons (.file _ none _) rest => analyzeWalk rest
  | .cons (.file _ (some sz) _) rest =>
    let p := analyzeWalk rest
    (p.1 + 1, p.2 + sz)
  | .cons (.dir nm children) rest =>
    if nm = ".git".toList then analyzeWalk rest
    else
      let pc := analyzeWalk children
      let pr := analyzeWalk rest
      (pc.1 + pr.1, pc.2 + pr.2)

/-- `GitService.analyze_repository_structure`: the standalone
`(file_count, total_size)` walk, translated separately from its own
source text (it is a textual twin of the walk inside
`_analyze_repository`). -/
def analyze_repository_structure : FSList → Nat × Nat
  | .nil => (0, 0)
  | .cons (.file _ none _) rest => analyze_repository_structure rest
  | .cons (.file _ (some sz) _) rest =>
    let p := analyze_repository_structure rest
    (p.1 + 1, p.2 + sz)
  | .cons (.dir nm children) rest =>
    if nm = ".git".toList then analyze_repository_structure rest
    else
      let pc := analyze_repository_structure children
      let pr := analyze_repository_structure rest
      (pc.1 + pr.1, pc.2 + pr.2)

/-- The `description_files` candidate list of `_analyze_repository`. -/
def description_files : List (List Char) :=
  ["README.md".toList, "README.txt".toList, "readme.md".toList]

/-- Lookup of a name among a directory's entries (`os.path.exists` on
`os.path.join(repo_path, name)` finds files and directories alike). -/
def findEntry : FSList → List Char → Option FSEntry
  | .nil, _ => none
  | .cons e rest, nm => if e.name = nm then some e else findEntry rest nm

/-- The line scan of `_analyze_repository`: split the content on
newlines, strip each line, take the first stripped line that is
non-empty and does not start with `#`, truncated to 200 characters. -/
def firstDescLine (content : List Char) : Option (List Char) :=
  (((splitOnChar '\n' content).map pyStripWS).find?
    (fun line => !line.isEmpty && !listStartsWith "#".toList line)).map
    (fun line => line.take 200)

/-- The README candidate loop of `_analyze_repository`: a candidate
that does not exist is skipped; a candidate that exists but whose read
raises (`except … continue`) is also skipped; the first candidate that
exists and reads successfully ends the loop (`break` after the `try`),
its first qualifying line — possibly absent — becoming the
description.  Opening a *directory* named like a candidate raises
`IsADirectoryError`, an `OSError`, hence is also skipped. -/
def descriptionLoop (entries : FSList) : List (List Char) → Option (List Char)
  | [] => none
  | nm :: rest =>
    match findEntry entries nm with
    | none => descriptionLoop entries rest
    | some (.dir _ _) => descriptionLoop entries rest
    | some (.file _ _ none) => descriptionLoop entries rest
    | some (.file _ _ (some content)) => firstDescLine content

/-- The description part of `_analyze_repository`. -/
def extractDescription (entries : FSList) : Option (List Char) :=
  descriptionLoop entries description_files

/-- `GitService._analyze_repository`: `(file_count, total_size,
description)` of the repository root's listing. -/
def analyzeRepository (entries : FSList) : Nat × Nat × Option (List Char) :=
  let p := analyzeWalk entries
  (p.1, p.2, extractDescription entries)

/-- Case folding used to state the claim's "case-insensitive match". -/
def toLowerList (l : List Char) : List Char := l.map Char.toLower

/-- Case-insensitive lookup of a name among a directory's entries,
used by the claim-side description predicate. -/
def findEntryCI : FSList → List Char → Option FSEntry
  | .nil, _ => none
  | .cons e rest, nm =>
    if toLowerList e.name = toLowerList nm then some e else findEntryCI rest nm

/-- Claim-side loop for C7 *as stated*: candidates are matched
case-insensitively in preference order, the first match wins, and a
selected README that cannot be read or decoded yields an absent
description (no fallthrough to later candidates). -/
def claimedLoop (entries : FSList) : List (List Char) → Option (List Char)
  | [] => none
  | nm :: rest =>
    match findEntryCI entries nm with
    | none => claimedLoop entries rest
    | some (.file _ _ (some content)) => firstDescLine content
    | some _ => none

/-- C7 claim-side description extraction, as the claim states it. -/
def descriptionSpec_claimed (entries : FSList) : Option (List Char) :=
  claimedLoop entries description_files

/-- The content of a readable regular file with the given exact name,
if any. -/
def readableContent (entries : FSList) (nm : List Char) : Option (List Char) :=
  match findEntry entries nm with
  | some (.file _ _ (some content)) => some content
  | _ => none

/-- Spec-side loop for the amended C7: candidates checked by *exact*
name in preference order; a candidate that is missing or unreadable is
skipped in favour of the next; the first readable candidate decides the
outcome. -/
def amendedLoop (entries : FSList) : List (List Char) → Option (List Char)
  | [] => none
  | nm :: rest =>
    match readableContent entries nm with
    | none => amendedLoop entries rest
    | some content => firstDescLine content

/-- C7 spec-side description extraction, as amended. -/
def descriptionSpec_amended (entries : FSList) : Option (List Char) :=
  amendedLoop entries description_files

/-- The collection loop of `GitService.get_repository_files`: walk the
target directory, pruning `.git` children, producing each file's path
relative to the repository root as its list of components (the target
path's components followed by the components below the target). -/
def walkFiles (pre : List (List Char)) : FSList → List (List (List Char))
  | .nil => []
  | .cons (.file nm _ _) rest => (pre ++ [nm]) :: walkFiles pre rest
  | .cons (.dir nm children) rest =>
    if nm = ".git".toList then walkFiles pre rest
    else walkFiles (pre ++ [nm]) children ++ walkFiles pre rest

/-- Join path components with `/` (POSIX `os.path.join`/`os.path.relpath`
output shape). -/
def joinPath : List (List Char) → List Char
  | [] => []
  | [c] => c
  | c :: rest => c ++ '/' :: joinPath rest

/-- Resolve `os.path.join(storage_path, relative_path)` inside the
repository tree.  The relative path is modelled as its list of
components (well-formed: no separators inside a component, no `..`,
not absolute); the empty list is Python's default `""`, the repository
root itself. -/
def navigateEntry : FSEntry → List (List Char) → Option FSEntry
  | e, [] => some e
  | .file _ _ _, _ :: _ => none
  | .dir _ children, c :: rest =>
    match findEntry children c with
    | none => none
    | some e => navigateEntry e rest

/-- Python string `<=`: lexicographic comparison by code point. -/
def charListLe : List Char → List Char → Bool
  | [], _ => true
  | _ :: _, [] => false
  | a :: as, b :: bs => if a = b then charListLe as bs else decide (a < b)

/-- Python `sorted` on strings, modelled as a stable insertion sort by
`charListLe`. -/
def pySorted (l : List (List Char)) : List (List Char) :=
  List.insertionSort (fun a b => charListLe a b = true) l

/-- Executable sortedness check for adjacent pairs. -/
def isSortedBy (le : List Char → List Char → Bool) : List (List Char) → Bool
  | [] => true
  | [_] => true
  | a :: b :: rest => le a b && isSortedBy le (b :: rest)

/-- The component lists collected by `get_repository_files` before
joining and sorting (empty when the target is absent or a file). -/
def collectedComponents (root : FSEntry) (rel : List (List Char)) :
    List (List (List Char)) :=
  match navigateEntry root rel with
  | some (.dir _ children) => walkFiles rel children
  | _ => []

/-- `GitService.get_repository_files`: `[]` when the target path does
not exist; `[]` when it is a file (`os.walk` over a non-directory
yields nothing); otherwise the walked file paths, joined and sorted. -/
def get_repository_files (root : FSEntry) (rel : List (List Char)) :
    List (List Char) :=
  match navigateEntry root rel with
  | none => []
  | some (.file _ _ _) => []
  | some (.dir _ children) => pySorted ((walkFiles rel children).map joinPath)

/-- A repository tree holding `.git/config` and `a.txt`, used as the
concrete input of the C10 counterexample and witness. -/
def demoGitRepo : FSEntry :=
  .dir "repo".toList
    (.cons (.dir ".git".toList
        (.cons (.file "config".toList (some 1) none) .nil))
      (.cons (.file "a.txt".toList (some 2) none) .nil))

/-- Root listing with a single readable `readme.txt`, first C7
counterexample input. -/
def demoReadmeA : FSList :=
  .cons (.file "readme.txt".toList (some 5) (some "hello".toList)) .nil

/-- Root listing with an undecodable `README.md` and a readable
`readme.md`, second C7 counterexample input. -/
def demoReadmeB : FSList :=
  .cons (.file "README.md".toList (some 4) none)
    (.cons (.file "readme.md".toList (some 2) (some "hi".toList)) .nil)

/-! ## Storage cleanup (`RepositoryService.cleanup_storage_if_needed`)

The database is a list of repository rows; the local storage is a list
of `(repository id, clone size in bytes)` pairs, one per directory
under the base storage path.  `datetime` arithmetic is in days, so the
30-day staleness cutoff is `now - 30`. -/

/-- A `Repository` row as touched by the cleanup query. -/
structure RepoRec where
  id : String
  name : String
  last_synced_at : Option Int
  total_size : Int
  status : String
  deriving DecidableEq

/-- The cleanup query's filter:
`last_synced_at < cutoff OR last_synced_at IS NULL` with
`cutoff = utcnow() - 30 days` (a SQL comparison against NULL is not
true, so only the explicit `IS NULL` disjunct admits never-synced
rows). -/
def staleOrNever (now : Int) (r : RepoRec) : Bool :=
  match r.last_synced_at with
  | none => true
  | some t => decide (t < now - 30)

/-- Stable insertion step for `ORDER BY total_size DESC`. -/
def insertBySizeDesc (r : RepoRec) : List RepoRec → List RepoRec
  | [] => [r]
  | x :: xs =>
    if x.total_size ≤ r.total_size then r :: x :: xs
    else x :: insertBySizeDesc r xs

/-- `ORDER BY total_size DESC`, modelled as a stable insertion sort
(SQL leaves tie order unspecified; the claims do not depend on it). -/
def sortBySizeDesc : List RepoRec → List RepoRec
  | [] => []
  | r :: rest => insertBySizeDesc r (sortBySizeDesc rest)

/-- The guard `usage_percentage >= threshold` of
`cleanup_storage_if_needed`.  `get_storage_usage` computes
`usage_percentage = total*100/limit` when the limit is positive and `0`
otherwise; for an integer threshold the float comparison is exactly the
cross-multiplied integer comparison used here. -/
def usageExceeds (limitBytes : Nat) (threshold : Int)
    (st : List (String × Nat)) : Bool :=
  let total : Nat := (st.map Prod.snd).sum
  if 0 < limitBytes then
    decide ((threshold * limitBytes : Int) ≤ (total : Int) * 100)
  else decide (threshold ≤ 0)

/-- The archive loop of `cleanup_storage_if_needed`: for each selected
row, `git_service.delete_repository` removes the clone directory and
reports whether it existed; only then is the row's `status` set to
`"archived"` (the row itself is never deleted).  Returns the updated
database, the updated storage, and the archived ids in order. -/
def evictLoop : List RepoRec → List RepoRec → List (String × Nat) →
    List RepoRec × List (String × Nat) × List String
  | [], db, st => (db, st, [])
  | r :: rest, db, st =>
    if st.any (fun p => decide (p.1 = r.id)) then
      let db' := db.map (fun x =>
        if x.id = r.id then { x with status := "archived" } else x)
      let st' := st.filter (fun p => !decide (p.1 = r.id))
      let res := evictLoop rest db' st'
      (res.1, res.2.1, r.id :: res.2.2)
    else
      evictLoop rest db st

/-- `RepositoryService.cleanup_storage_if_needed`: return unchanged
state and `false` when usage is below the threshold; otherwise select
the stale-or-never-synced rows ordered by `total_size` descending,
limited to 5, archive them, and report whether anything was
archived. -/
def cleanup_storage_if_needed (limitBytes : Nat) (threshold : Int) (now : Int)
    (db : List RepoRec) (st : List (String × Nat)) :
    List RepoRec × List (String × Nat) × List String × Bool :=
  if !usageExceeds limitBytes threshold st then (db, st, [], false)
  else
    let old_repos := (sortBySizeDesc (db.filter (staleOrNever now))).take 5
    let res := evictLoop old_repos db st
    (res.1, res.2.1, res.2.2, decide (res.2.2 ≠ []))

/-- The `old_repos` query result: stale rows, size-descending, at most
five. -/
def evictionCandidates (now : Int) (db : List RepoRec) : List RepoRec :=
  (sortBySizeDesc (db.filter (staleOrNever now))).take 5

/-- Six repositories, all stale: `r1` was never synced and is the
smallest, `r2`–`r6` were synced 90 days ago with growing sizes. -/
def demoDb : List RepoRec :=
  [⟨"r1", "n1", none, 1, "active"⟩,
   ⟨"r2", "n2", some 10, 2, "active"⟩,
   ⟨"r3", "n3", some 10, 3, "active"⟩,
   ⟨"r4", "n4", some 10, 4, "active"⟩,
   ⟨"r5", "n5", some 10, 5, "active"⟩,
   ⟨"r6", "n6", some 10, 6, "active"⟩]

/-- One 20-byte clone per demo repository (120 of 100 bytes used). -/
def demoStorage : List (String × Nat) :=
  [("r1", 20), ("r2", 20), ("r3", 20), ("r4", 20), ("r5", 20), ("r6", 20)]

/-! ## Import pipeline failure path (`routes/repositories.py`)

`import_repository_background` is modelled as a function of the clone
step's outcome: `clone_repository` either returns a
`GitRepositoryInfo` or raises a `GitOperationError` whose message is
built with one of three non-empty literal prefixes.  The in-memory
progress cache and the intermediate progress callbacks do not touch the
fields the claim is about and are not represented; the `progress`
column retains whatever the callbacks last wrote. -/

/-- `GitRepositoryInfo` returned by a successful clone. -/
structure GitRepositoryInfo where
  url : List Char
  name : List Char
  owner : List Char
  branch : List Char
  commit_hash : List Char
  description : Option (List Char)
  file_count : Nat
  total_size : Nat

/-- The ways `clone_repository` raises `GitOperationError`: URL
validation failure, a caught `GitError`, or any other exception. -/
inductive CloneError where
  | invalidUrl (url : List Char)
  | gitFailed (msg : List Char)
  | unexpected (msg : List Char)

/-- `str(e)` of the raised `GitOperationError`, with the f-string
prefixes used in `clone_repository`. -/
def cloneErrorMessage : CloneError → List Char
  | .invalidUrl url => "Invalid repository URL: ".toList ++ url
  | .gitFailed msg => "Git operation failed: ".toList ++ msg
  | .unexpected msg => "Unexpected error during clone: ".toList ++ msg

/-- An `ImportJob` row. -/
structure ImportJobRec where
  id : String
  repository_id : String
  url : List Char
  status : String
  progress : Nat
  message : String
  error_message : Option (List Char)
  completed_at : Option Int
  user_email : String

/-- A `Repository` row as created by a completed import. -/
structure RepositoryRec where
  id : String
  name : List Char
  owner : List Char
  url : List Char
  description : Option (List Char)
  branch : List Char
  commit_hash : List Char
  file_count : Nat
  total_size : Nat
  status : String
  imported_at : Int
  user_email : String

/-- `import_repository_background`: set the job to `cloning`, run the
clone; on `GitOperationError` set the job to `failed` with
`error_message = str(e)` and `completed_at`, adding no `Repository`
row; on success add the `Repository` row built from the clone result
and mark the job `completed` at progress 100. -/
def import_repository_background
    (outcome : Except CloneError GitRepositoryInfo) (now : Int)
    (job : ImportJobRec) (repos : List RepositoryRec) :
    ImportJobRec × List RepositoryRec :=
  let cloningJob := { job with
    status := "cloning", message := "Starting clone operation..." }
  match outcome with
  | .error e =>
    ({ cloningJob with
        status := "failed"
        message := "Import failed"
        error_message := some (cloneErrorMessage e)
        completed_at := some now },
     repos)
  | .ok info =>
    let repo : RepositoryRec :=
      { id := job.repository_id, name := info.name, owner := info.owner,
        url := info.url, description := info.description,
        branch := info.branch, commit_hash := info.commit_hash,
        file_count := info.file_count, total_size := info.total_size,
        status := "active", imported_at := now,
        user_email := job.user_email }
    ({ cloningJob with
        status := "completed", progress := 100,
        message := "Repository imported successfully!",
        completed_at := some now },
     repos ++ [repo])


/-! ## Theorems -/
/-! ### Rate limiter lemmas -/

/-- Pruning at call `k ≤ N` removes nothing: every earlier timestamp is
still inside the sliding window. -/
theorem pruneWindow_id_of_window (N : ℕ) (window : Int) (t : ℕ → Int)
    (hmono : ∀ i j, i < j → j ≤ N → t i < t j)
    (hwin : ∀ i, i ≤ N → t N - t i < window)
    (k : ℕ) (hk : k ≤ N) :
    pruneWindow (t k) window ((Finset.range k).image t) =
      (Finset.range k).image t := by
  apply Finset.filter_true_of_mem
  intro x hx
  simp only [Finset.mem_image, Finset.mem_range] at hx
  obtain ⟨i, hi, rfl⟩ := hx
  rintro ⟨-, hle⟩
  have hkN : t k ≤ t N := by
    rcases Nat.lt_or_ge k N with h | h
    · exact le_of_lt (hmono k N h le_rfl)
    · have : k = N := le_antisymm hk h
      simp [this]
  have h2 : t N - t i < window := hwin i (le_trans (Nat.le_of_lt hi) hk)
  omega

/-- Under strictly increasing call instants all inside one window, the
key's sorted set after `k` calls is exactly the image of the first `k`
instants. -/
theorem runState_eq_image (N : ℕ) (window : Int) (t : ℕ → Int)
    (hmono : ∀ i j, i < j → j ≤ N → t i < t j)
    (hwin : ∀ i, i ≤ N → t N - t i < window) :
    ∀ k, k ≤ N + 1 →
      runState (N : Int) window t k = (Finset.range k).image t := by
  intro k
  induction k with
  | zero => intro _; simp [runState]
  | succ k ih =>
    intro hk
    have hkN : k ≤ N := Nat.lt_succ_iff.mp hk
    have hprev := ih (Nat.le_succ_of_le hkN)
    rw [runState, hprev]
    have hpr := pruneWindow_id_of_window N window t hmono hwin k hkN
    simp [is_allowed, hpr, Finset.range_succ, Finset.image_insert]

/-- Strictly increasing instants are pairwise distinct, so the stored
set after `k ≤ N + 1` calls has exactly `k` members. -/
theorem card_image_range (N : ℕ) (t : ℕ → Int)
    (hmono : ∀ i j, i < j → j ≤ N → t i < t j) :
    ∀ k, k ≤ N + 1 → ((Finset.range k).image t).card = k := by
  intro k hk
  rw [Finset.card_image_of_injOn, Finset.card_range]
  intro i hi j hj hij
  simp only [Finset.coe_range, Set.mem_Iio] at hi hj
  by_contra hne
  rcases Nat.lt_or_gt_of_ne hne with h | h
  · exact absurd hij (ne_of_lt (hmono i j h (by omega)))
  · exact absurd hij.symm (ne_of_lt (hmono j i h (by omega)))

/-- C1.  Sliding-window behaviour of `RateLimiter.is_allowed`: with
`limit = N ≥ 1` and calls at strictly increasing instants
`t 0 < … < t N` that all lie within one window of each other, the
first `N` calls are allowed, the `(N+1)`-th call is denied with
`retry_after` equal to the window length, and once a full window has
elapsed past every one of those instants a further call for the same
key is allowed again. -/
theorem rate_limiter_sliding_window_spec (N : ℕ) (window : Int)
    (t : ℕ → Int)
    (hN : 0 < N)
    (hmono : ∀ i j, i < j → j ≤ N → t i < t j)
    (hnn : ∀ i, i ≤ N → 0 ≤ t i)
    (hwin : ∀ i, i ≤ N → t N - t i < window) :
    (∀ k, k < N → (runResult (N : Int) window t k).allowed = true) ∧
    (runResult (N : Int) window t N).allowed = false ∧
    (runResult (N : Int) window t N).retry_after = some window ∧
    (∀ now, (∀ i, i ≤ N → t i + window ≤ now) →
      (is_allowed (N : Int) window now
        (runState (N : Int) window t (N + 1))).1.allowed = true) := by
  have hstate := runState_eq_image N window t hmono hwin
  have hcard := card_image_range N t hmono
  have hres : ∀ k, k ≤ N →
      runResult (N : Int) window t k =
        (is_allowed (N : Int) window (t k)
          ((Finset.range k).image t)).1 := by
    intro k hk
    rw [runResult, hstate k (Nat.le_succ_of_le hk)]
  refine ⟨?_, ?_, ?_, ?_⟩
  · intro k hk
    rw [hres k (le_of_lt hk)]
    have hpr := pruneWindow_id_of_window N window t hmono hwin k (le_of_lt hk)
    simp [is_allowed, hpr, hcard k (by omega)]
    exact_mod_cast hk
  · rw [hres N le_rfl]
    have hpr := pruneWindow_id_of_window N window t hmono hwin N le_rfl
    simp [is_allowed, hpr, hcard N (by omega)]
  · rw [hres N le_rfl]
    have hpr := pruneWindow_id_of_window N window t hmono hwin N le_rfl
    simp [is_allowed, hpr, hcard N (by omega)]
  · intro now hnow
    rw [hstate (N + 1) le_rfl]
    have hempty : pruneWindow now window ((Finset.range (N + 1)).image t) =
        ∅ := by
      rw [pruneWindow, Finset.filter_eq_empty_iff]
      intro x hx
      simp only [Finset.mem_image, Finset.mem_range] at hx
      obtain ⟨i, hi, rfl⟩ := hx
      have h1 := hnn i (by omega)
      have h2 := hnow i (by omega)
      simp only [not_not]
      omega
    simp [is_allowed, hempty]
    exact_mod_cast hN

/-- Witness for C1 at `N = 1`, `window = 10`, instants `0, 1`, and a
later call at instant `100`. -/
theorem rate_limiter_sliding_window_spec_witness :
    (runResult 1 10 (fun i => (i : Int)) 0).allowed = true ∧
    (runResult 1 10 (fun i => (i : Int)) 1).allowed = false ∧
    (runResult 1 10 (fun i => (i : Int)) 1).retry_after = some 10 ∧
    (is_allowed 1 10 100 (runState 1 10 (fun i => (i : Int)) 2)).1.allowed
      = true := by
  have h := rate_limiter_sliding_window_spec 1 10 (fun i => (i : Int))
    (by decide)
    (by intro i j hij _; show (i : Int) < (j : Int); exact_mod_cast hij)
    (by intro i _; exact Int.natCast_nonneg i)
    (by intro i _; show ((1 : ℕ) : Int) - (i : Int) < 10; omega)
  exact ⟨h.1 0 (by decide), h.2.1, h.2.2.1,
    h.2.2.2 100 (by
      intro i hi
      show (i : Int) + 10 ≤ 100
      omega)⟩

/-- C4 counterexample.  A denied call still mutates the key's stored
state beyond pruning: with `limit = 2`, `window = 10`, two live entries
`{0, 1}` and a call at instant `2`, the call is denied yet the stored
set afterwards is `{2, 0, 1}`, not the pruned set `{0, 1}` — the
current timestamp was inserted despite the denial. -/
theorem denied_insert_counterexample :
    (is_allowed 2 10 2 ({0, 1} : Finset Int)).1.allowed = false ∧
    (is_allowed 2 10 2 ({0, 1} : Finset Int)).2 ≠
      pruneWindow 2 10 ({0, 1} : Finset Int) := by
  decide

/-- C4 amended.  When the pruned count `n` satisfies `n ≥ limit`, the
call returns `allowed = false`, `remaining = 0` and
`retry_after = window`; however the current timestamp is inserted into
the key's set unconditionally — the stored state after the call is the
pruned set plus the current instant in the denied case exactly as in
the allowed case. -/
theorem denied_request_amended (limit window now : Int) (s : Finset Int)
    (h : limit ≤ ((pruneWindow now window s).card : Int)) :
    (is_allowed limit window now s).1.allowed = false ∧
    (is_allowed limit window now s).1.remaining = 0 ∧
    (is_allowed limit window now s).1.retry_after = some window ∧
    (is_allowed limit window now s).2 =
      insert now (pruneWindow now window s) := by
  have hnot : ¬ (((pruneWindow now window s).card : Int) < limit) := by omega
  refine ⟨?_, ?_, ?_, rfl⟩
  · simp [is_allowed, hnot]
  · simp [is_allowed]
    omega
  · simp [is_allowed, hnot]

/-- Witness for the amended C4 at `limit = 2`, `window = 10`,
state `{0, 1}`, instant `2`. -/
theorem denied_request_amended_witness :
    (is_allowed 2 10 2 ({0, 1} : Finset Int)).1.allowed = false ∧
    (is_allowed 2 10 2 ({0, 1} : Finset Int)).1.remaining = 0 ∧
    (is_allowed 2 10 2 ({0, 1} : Finset Int)).1.retry_after = some 10 ∧
    (is_allowed 2 10 2 ({0, 1} : Finset Int)).2 =
      insert 2 (pruneWindow 2 10 ({0, 1} : Finset Int)) :=
  denied_request_amended 2 10 2 {0, 1} (by decide)

/-- C8.  Two requests carrying the identical timestamp are silently
de-duplicated: the sorted-set member is `str(now)`, so the second
`zadd` overwrites the first and the window set holds one entry, not
two.  Here: two calls at instant `5` with `limit = 10`, `window = 60`
starting from an absent key leave a single stored entry. -/
theorem identical_timestamp_dedup :
    (is_allowed 10 60 5 ((is_allowed 10 60 5 ∅).2)).2.card = 1 := by
  decide

/-- C9 counterexample.  The fail-open branch returns
`remaining = limit - 1` without clamping, which is negative at
`limit = 0`. -/
theorem fail_open_negative_remaining :
    (failOpen 0 60 0).remaining < 0 := by
  decide

/-- C9 amended.  On the Redis path `remaining` is clamped with
`max(0, …)` and is never negative, for every limit and every stored
state; the fail-open branch returns `remaining = limit - 1`, which is
non-negative only when `limit ≥ 1`. -/
theorem remaining_nonneg_amended (limit window now : Int) (s : Finset Int) :
    0 ≤ (is_allowed limit window now s).1.remaining ∧
    (1 ≤ limit → 0 ≤ (failOpen limit window now).remaining) := by
  constructor
  · simp [is_allowed]
  · intro h
    simp [failOpen]
    omega

/-- Witness for the amended C9 at `limit = 1`, `window = 60`,
instant `0`, empty state. -/
theorem remaining_nonneg_amended_witness :
    0 ≤ (is_allowed 1 60 0 ∅).1.remaining ∧
    (1 ≤ (1 : Int) → 0 ≤ (failOpen 1 60 0).remaining) :=
  remaining_nonneg_amended 1 60 0 ∅

theorem listStartsWith_trans :
    ∀ (a b c : List Char), listStartsWith a b = true →
      listStartsWith b c = true → listStartsWith a c = true
  | [], _, _, _, _ => rfl
  | _ :: _, [], _, h, _ => by simp [listStartsWith] at h
  | _ :: _, _ :: _, [], _, h2 => by simp [listStartsWith] at h2
  | a :: as, b :: bs, c :: cs, h1, h2 => by
    simp only [listStartsWith, Bool.and_eq_true, decide_eq_true_eq] at h1 h2 ⊢
    obtain ⟨rfl, h1'⟩ := h1
    obtain ⟨rfl, h2'⟩ := h2
    exact ⟨rfl, listStartsWith_trans as bs cs h1' h2'⟩

/-- Two matching patterns of the same string are comparable. -/
theorem listStartsWith_comparable :
    ∀ (p q u : List Char), listStartsWith p u = true →
      listStartsWith q u = true →
      listStartsWith p q = true ∨ listStartsWith q p = true
  | [], _, _, _, _ => Or.inl rfl
  | _ :: _, [], _, _, _ => Or.inr rfl
  | _ :: _, _ :: _, [], h1, _ => by simp [listStartsWith] at h1
  | p :: ps, q :: qs, u :: us, h1, h2 => by
    simp only [listStartsWith, Bool.and_eq_true, decide_eq_true_eq] at h1 h2 ⊢
    obtain ⟨rfl, h1'⟩ := h1
    obtain ⟨rfl, h2'⟩ := h2
    rcases listStartsWith_comparable ps qs us h1' h2' with h | h
    · exact Or.inl ⟨rfl, h⟩
    · exact Or.inr ⟨rfl, h⟩

theorem listStartsWith_not_nil (p : Char) (ps u : List Char)
    (h : listStartsWith (p :: ps) u = true) : u.isEmpty = false := by
  cases u with
  | nil => simp [listStartsWith] at h
  | cons x xs => rfl

theorem https_of_httpsPattern (u : List Char)
    (h : httpsPatterns.any (fun p => listStartsWith p u) = true) :
    listStartsWith "https://".toList u = true := by
  rw [List.any_eq_true] at h
  obtain ⟨p, hp, hpu⟩ := h
  simp only [httpsPatterns, List.mem_cons, List.not_mem_nil, or_false] at hp
  rcases hp with rfl | rfl | rfl <;>
    exact listStartsWith_trans _ _ _ (by decide) hpu

theorem not_https_of_sshPattern (u : List Char)
    (h : sshPatterns.any (fun p => listStartsWith p u) = true) :
    listStartsWith "https://".toList u = false := by
  rw [List.any_eq_true] at h
  obtain ⟨p, hp, hpu⟩ := h
  simp only [sshPatterns, List.mem_cons, List.not_mem_nil, or_false] at hp
  cases hH : listStartsWith "https://".toList u with
  | false => rfl
  | true =>
    exfalso
    rcases hp with rfl | rfl | rfl <;>
      · rcases listStartsWith_comparable _ _ u hpu hH with h | h <;>
          revert h <;> decide

theorem ssh_not_nil (u : List Char)
    (h : sshPatterns.any (fun p => listStartsWith p u) = true) :
    u.isEmpty = false := by
  rw [List.any_eq_true] at h
  obtain ⟨p, hp, hpu⟩ := h
  simp only [sshPatterns, List.mem_cons, List.not_mem_nil, or_false] at hp
  rcases hp with rfl | rfl | rfl <;> exact listStartsWith_not_nil _ _ u hpu

theorem all_not_eq_not_any {α : Type} (p : α → Bool) (l : List α) :
    l.all (fun x => !p x) = !l.any p := by
  induction l with
  | nil => rfl
  | cons x xs ih => simp [List.all_cons, List.any_cons, ih, Bool.not_or]

theorem if3_false (a b c : Bool) :
    (if a then false else if b then false else if c then false else true)
      = (!a && !b && !c) := by
  cases a <;> cases b <;> cases c <;> rfl

/-- C3 counterexample.  The claim demands `validate(url) = false` for a
URL whose path contains a browsing-segment token "in both the HTTPS and
the SSH form", but the SSH branch performs no browsing-token check:
`git@github.com:owner/repo/tree/main` is accepted. -/
theorem validate_ssh_tree_counterexample :
    validate_repository_url "git@github.com:owner/repo/tree/main".toList
      = true := by decide

/-- C3 amended.  `validate_repository_url` accepts exactly the URLs of
the claim's description, except that the browsing-token rejection (and
the all-segments-non-empty requirement) applies only to the HTTPS form;
the SSH form checks only that owner and repo after the colon are
present and non-empty.  Stated as: the translated code agrees with the
spec-side predicate `validateSpec_amended` on every URL string. -/
theorem validate_repository_url_amended (url : List Char) :
    validate_repository_url url = validateSpec_amended url := by
  by_cases hh : httpsPatterns.any
      (fun p => listStartsWith p (pyStripWS url)) = true
  · have hH := https_of_httpsPattern _ hh
    have hne : (pyStripWS url).isEmpty = false :=
      listStartsWith_not_nil 'h' _ _ hH
    have hany : (httpsPatterns ++ sshPatterns).any
        (fun p => listStartsWith p (pyStripWS url)) = true := by
      rw [List.any_append, hh, Bool.true_or]
    rw [validate_repository_url, validateSpec_amended]
    simp only [hne, hany, hh, hH, Bool.false_eq_true, not_true,
      if_true, ite_true, ite_false, if_false]
    rcases splitOnChar '/' (pyStripChar '/' (httpsPath (pyStripWS url))) with
      _ | ⟨o, _ | ⟨r, rest⟩⟩
    · rfl
    · rfl
    · dsimp only
      rw [if3_false,
        decide_eq_true (show 2 ≤ (o :: r :: rest).length by
          simp [List.length_cons]),
        Bool.true_and, all_not_eq_not_any, all_not_eq_not_any]
      simp only [List.any_cons]
      generalize o.isEmpty = x
      generalize r.isEmpty = y
      generalize (rest.any fun part => part.isEmpty) = z
      generalize browsingTokens.contains o = a
      generalize browsingTokens.contains r = b
      generalize (rest.any fun part => browsingTokens.contains part) = c
      revert x y z a b c
      decide
  · rw [validate_repository_url, validateSpec_amended]
    by_cases hs : sshPatterns.any
        (fun p => listStartsWith p (pyStripWS url)) = true
    · have hH := not_https_of_sshPattern _ hs
      have hne : (pyStripWS url).isEmpty = false := ssh_not_nil _ hs
      have hany : (httpsPatterns ++ sshPatterns).any
          (fun p => listStartsWith p (pyStripWS url)) = true := by
        rw [List.any_append, hs, Bool.or_true]
      simp only [hne, hany, hh, hH, hs, Bool.false_eq_true, not_true,
        if_true, ite_true, ite_false, if_false]
    · have hany : (httpsPatterns ++ sshPatterns).any
          (fun p => listStartsWith p (pyStripWS url)) = false := by
        rw [List.any_append, Bool.eq_false_iff.mpr hh, Bool.eq_false_iff.mpr hs]
        rfl
      simp only [hany, hh, hs, Bool.false_eq_true, not_false_iff,
        if_true, ite_true, ite_false, if_false]
      cases (pyStripWS url).isEmpty <;> rfl

/-! ### Analyzer and file-listing theorems -/

/-- C6.  `analyze_repository_structure` and the walk used by
`_analyze_repository` report identical `file_count` and `total_size`
on every directory tree: the standalone walk equals the pair returned
inside `analyzeRepository`. -/
theorem analyze_walks_equivalent (entries : FSList) :
    analyze_repository_structure entries =
      ((analyzeRepository entries).1, (analyzeRepository entries).2.1) := by
  have h : analyze_repository_structure entries = analyzeWalk entries := by
    induction entries using analyzeWalk.induct <;>
      simp [analyzeWalk, analyze_repository_structure, *]
  rw [h, analyzeRepository]

theorem descriptionLoop_eq_amended (entries : FSList) :
    ∀ names, descriptionLoop entries names = amendedLoop entries names := by
  intro names
  induction names with
  | nil => rfl
  | cons nm rest ih =>
    rw [descriptionLoop, amendedLoop, readableContent]
    cases hf : findEntry entries nm with
    | none => simpa using ih
    | some e =>
      cases e with
      | dir n children => simpa using ih
      | file n sz content =>
        cases content with
        | none => simpa using ih
        | some c => simp

/-- C7 counterexample.  Against `demoReadmeA` the claim's
case-insensitive selection produces the description `hello` from
`readme.txt`, but the code matches exact names only and extracts
nothing.  Against `demoReadmeB` the claim demands an absent description
(the selected `README.md` cannot be decoded), but the code falls
through to `readme.md` and extracts `hi`.  Either input alone refutes
the claim as stated. -/
theorem readme_selection_counterexample :
    extractDescription demoReadmeA = none ∧
    descriptionSpec_claimed demoReadmeA = some "hello".toList ∧
    extractDescription demoReadmeB = some "hi".toList ∧
    descriptionSpec_claimed demoReadmeB = none := by
  decide

/-- C7 amended.  Description extraction checks `README.md`,
`README.txt`, `readme.md` by exact name in that order; a candidate that
is missing, unreadable or undecodable is skipped in favour of the next;
the first readable existing candidate wins and the description is its
first whitespace-stripped non-empty line not starting with `#`,
truncated to 200 characters — absent when no candidate is readable or
no qualifying line exists.  Stated as: the translated code agrees with
the amended spec-side extraction on every directory listing. -/
theorem description_extraction_amended (entries : FSList) :
    extractDescription entries = descriptionSpec_amended entries :=
  descriptionLoop_eq_amended entries description_files

theorem charListLe_trans :
    ∀ a b c, charListLe a b = true → charListLe b c = true →
      charListLe a c = true
  | [], _, _, _, _ => rfl
  | _ :: _, [], _, h, _ => by simp [charListLe] at h
  | _ :: _, _ :: _, [], _, h => by simp [charListLe] at h
  | a :: as, b :: bs, c :: cs, h1, h2 => by
    simp only [charListLe] at h1 h2 ⊢
    by_cases hab : a = b
    · subst hab
      by_cases hac : a = c
      · subst hac
        rw [if_pos rfl] at h1 h2 ⊢
        exact charListLe_trans as bs cs h1 h2
      · rw [if_neg hac] at h2 ⊢
        exact h2
    · rw [if_neg hab] at h1
      have hab' : a < b := of_decide_eq_true h1
      by_cases hbc : b = c
      · subst hbc
        rw [if_neg hab]
        exact decide_eq_true hab'
      · rw [if_neg hbc] at h2
        have hbc' : b < c := of_decide_eq_true h2
        have hac' : a < c := lt_trans hab' hbc'
        rw [if_neg (ne_of_lt hac')]
        exact decide_eq_true hac'

theorem charListLe_total :
    ∀ a b, charListLe a b = true ∨ charListLe b a = true
  | [], _ => .inl rfl
  | _ :: _, [] => .inr rfl
  | a :: as, b :: bs => by
    simp only [charListLe]
    by_cases hab : a = b
    · subst hab
      rw [if_pos rfl, if_pos rfl]
      exact charListLe_total as bs
    · rcases lt_or_gt_of_ne hab with h | h
      · left
        rw [if_neg hab]
        exact decide_eq_true h
      · right
        rw [if_neg (Ne.symm hab)]
        exact decide_eq_true h

instance : IsTotal (List Char) (fun a b => charListLe a b = true) :=
  ⟨charListLe_total⟩

instance : IsTrans (List Char) (fun a b => charListLe a b = true) :=
  ⟨fun a b c => charListLe_trans a b c⟩

theorem isSortedBy_of_sorted (le : List Char → List Char → Bool) :
    ∀ l, List.Sorted (fun a b => le a b = true) l → isSortedBy le l = true
  | [], _ => rfl
  | [_], _ => rfl
  | a :: b :: rest, h => by
    rw [List.sorted_cons] at h
    rw [isSortedBy, h.1 b (List.mem_cons_self b rest),
      isSortedBy_of_sorted le (b :: rest) h.2]
    rfl

/-- Every collected path is the target's components, then components of
directories below the target — none of which is `.git` — then the file
name. -/
theorem walkFiles_shape :
    ∀ (pre : List (List Char)) (entries : FSList) (comps : List (List Char)),
      comps ∈ walkFiles pre entries →
      ∃ mid nm, comps = pre ++ (mid ++ [nm]) ∧ ".git".toList ∉ mid
  | pre, .nil, comps, h => by simp [walkFiles] at h
  | pre, .cons (.file nm sz ct) rest, comps, h => by
    rw [walkFiles] at h
    rcases List.mem_cons.mp h with rfl | h'
    · exact ⟨[], nm, by simp, by simp⟩
    · exact walkFiles_shape pre rest comps h'
  | pre, .cons (.dir nm children) rest, comps, h => by
    rw [walkFiles] at h
    by_cases hgit : nm = ".git".toList
    · rw [if_pos hgit] at h
      exact walkFiles_shape pre rest comps h
    · rw [if_neg hgit] at h
      rcases List.mem_append.mp h with h' | h'
      · obtain ⟨mid, x, hc, hmid⟩ := walkFiles_shape (pre ++ [nm]) children comps h'
        refine ⟨nm :: mid, x, by simpa using hc, ?_⟩
        simp only [List.mem_cons, not_or]
        exact ⟨fun hh => hgit hh.symm, hmid⟩
      · exact walkFiles_shape pre rest comps h'

/-- C10 counterexample.  With the relative path `.git` the code walks
the `.git` directory itself and returns its files — here
`.git/config` — although the claim demands that every file under a
`.git` directory be excluded from the listing. -/
theorem git_dir_listing_counterexample :
    get_repository_files demoGitRepo [".git".toList] =
      [".git/config".toList] := by
  decide

/-- C10 amended.  For every repository tree and every relative path
that does not itself contain a `.git` component, `get_repository_files`
never raises and returns exactly the walked file paths joined and
sorted ascending (empty when the target does not exist or is not a
directory), the result is sorted, and no returned path has `.git` as a
directory component — `.git` directories are never descended into.
When the relative path itself points at or into `.git`, its files are
returned (the counterexample), which is the one divergence from the
claim as stated. -/
theorem get_repository_files_amended (root : FSEntry) (rel : List (List Char))
    (hrel : ".git".toList ∉ rel) :
    get_repository_files root rel =
      pySorted ((collectedComponents root rel).map joinPath) ∧
    isSortedBy charListLe (get_repository_files root rel) = true ∧
    (collectedComponents root rel).all
      (fun comps => !decide (".git".toList ∈ comps.dropLast)) = true := by
  refine ⟨?_, ?_, ?_⟩
  · cases hnav : navigateEntry root rel with
    | none => simp [get_repository_files, collectedComponents, hnav, pySorted]
    | some e =>
      cases e <;>
        simp [get_repository_files, collectedComponents, hnav, pySorted]
  · cases hnav : navigateEntry root rel with
    | none => simp [get_repository_files, hnav, isSortedBy]
    | some e =>
      cases e with
      | file nm sz ct => simp [get_repository_files, hnav, isSortedBy]
      | dir nm children =>
        have hs := List.sorted_insertionSort
          (r := fun a b => charListLe a b = true)
          ((walkFiles rel children).map joinPath)
        simp only [get_repository_files, hnav]
        exact isSortedBy_of_sorted _ _ hs
  · rw [List.all_eq_true]
    intro comps hc
    rw [collectedComponents] at hc
    revert hc
    cases hnav : navigateEntry root rel with
    | none => intro hc; simp at hc
    | some e =>
      cases e with
      | file nm sz ct => intro hc; simp at hc
      | dir nm children =>
        intro hc
        obtain ⟨mid, x, rfl, hmid⟩ := walkFiles_shape rel children comps hc
        simp only [Bool.not_eq_true', decide_eq_false_iff_not]
        rw [← List.append_assoc, List.dropLast_concat]
        rw [List.mem_append]
        rintro (h | h)
        · exact hrel h
        · exact hmid h

/-- Witness for the amended C10 at `demoGitRepo` with the empty
relative path (the repository root). -/
theorem get_repository_files_amended_witness :
    (get_repository_files demoGitRepo [] =
      pySorted ((collectedComponents demoGitRepo []).map joinPath)) ∧
    isSortedBy charListLe (get_repository_files demoGitRepo []) = true ∧
    (collectedComponents demoGitRepo []).all
      (fun comps => !decide (".git".toList ∈ comps.dropLast)) = true :=
  get_repository_files_amended demoGitRepo [] (by decide)

/-! ### Storage cleanup theorems -/

/-- One pass of the archive loop over candidates with distinct ids and
present clones: every candidate's row is archived (all other fields and
all other rows untouched), every candidate's clone is removed, and the
archived ids are exactly the candidate ids in order. -/
theorem evictLoop_spec :
    ∀ (cands : List RepoRec) (db : List RepoRec) (st : List (String × Nat)),
      (cands.map RepoRec.id).Nodup →
      (∀ r ∈ cands, st.any (fun p => decide (p.1 = r.id)) = true) →
      evictLoop cands db st =
        (db.map (fun x =>
            if x.id ∈ cands.map RepoRec.id then { x with status := "archived" }
            else x),
         st.filter (fun p => !decide (p.1 ∈ cands.map RepoRec.id)),
         cands.map RepoRec.id) := by
  intro cands
  induction cands with
  | nil =>
    intro db st _ _
    simp [evictLoop]
  | cons r rest ih =>
    intro db st hnodup hpres
    have hr : st.any (fun p => decide (p.1 = r.id)) = true :=
      hpres r (List.mem_cons_self r rest)
    rw [evictLoop, if_pos hr]
    dsimp only
    have hnotin : r.id ∉ rest.map RepoRec.id := by
      simp only [List.map_cons, List.nodup_cons] at hnodup
      exact hnodup.1
    have hrest_nodup : (rest.map RepoRec.id).Nodup := by
      simp only [List.map_cons, List.nodup_cons] at hnodup
      exact hnodup.2
    have hrest_pres : ∀ x ∈ rest,
        (st.filter (fun p => !decide (p.1 = r.id))).any
          (fun p => decide (p.1 = x.id)) = true := by
      intro x hx
      have hxid : x.id ≠ r.id := by
        intro hcontra
        exact hnotin (hcontra ▸ List.mem_map_of_mem RepoRec.id hx)
      have hx' := hpres x (List.mem_cons_of_mem r hx)
      rw [List.any_eq_true] at hx' ⊢
      obtain ⟨p, hp, hpid⟩ := hx'
      refine ⟨p, List.mem_filter.mpr ⟨hp, ?_⟩, hpid⟩
      have : p.1 = x.id := of_decide_eq_true hpid
      simp [this, hxid]
    rw [ih _ _ hrest_nodup hrest_pres]
    refine Prod.ext ?_ (Prod.ext ?_ ?_)
    · simp only [List.map_map, List.map_cons]
      apply List.map_congr_left
      intro x _
      by_cases hxr : x.id = r.id
      · simp [Function.comp, hxr, List.mem_cons]
      · simp only [Function.comp_apply, if_neg hxr]
        by_cases hxm : x.id ∈ rest.map RepoRec.id
        · simp [hxm, List.mem_cons]
        · simp [hxm, List.mem_cons, hxr]
    · simp only [List.filter_filter, List.map_cons]
      apply List.filter_congr
      intro p _
      by_cases hpr : p.1 = r.id
      · simp [hpr, List.mem_cons]
      · simp [hpr, List.mem_cons]
    · simp [List.map_cons]

theorem insertBySizeDesc_perm (r : RepoRec) :
    ∀ l, List.Perm (insertBySizeDesc r l) (r :: l)
  | [] => List.Perm.refl _
  | x :: xs => by
    rw [insertBySizeDesc]
    by_cases h : x.total_size ≤ r.total_size
    · rw [if_pos h]
    · rw [if_neg h]
      exact ((insertBySizeDesc_perm r xs).cons x).trans (List.Perm.swap r x xs)

theorem sortBySizeDesc_perm : ∀ l, List.Perm (sortBySizeDesc l) l
  | [] => List.Perm.refl _
  | r :: rest => by
    rw [sortBySizeDesc]
    exact (insertBySizeDesc_perm r (sortBySizeDesc rest)).trans
      ((sortBySizeDesc_perm rest).cons r)

/-- C2 counterexample.  With six stale repositories — `r1` never synced
and smallest, `r2`–`r6` synced long ago with growing sizes — and usage
above the threshold, one cleanup call archives `r6, r5, r4, r3, r2` in
size-descending order and leaves `r1` active with its clone on disk:
the query orders by `total_size` descending only, so the claim's
"oldest `last_synced_at` first, null oldest" (which demands `r1` go
first) is violated. -/
theorem cleanup_order_counterexample :
    (cleanup_storage_if_needed 100 80 100 demoDb demoStorage).2.2.1 =
      ["r6", "r5", "r4", "r3", "r2"] ∧
    (⟨"r1", "n1", none, 1, "active"⟩ : RepoRec) ∈
      (cleanup_storage_if_needed 100 80 100 demoDb demoStorage).1 ∧
    ("r1", 20) ∈
      (cleanup_storage_if_needed 100 80 100 demoDb demoStorage).2.1 := by
  decide

/-- C2 amended.  Whenever storage usage is at or above the threshold,
one cleanup call archives — among the repositories whose
`last_synced_at` is null or older than the 30-day cutoff — at most five
of them, ordered by `total_size` descending; for each the local clone
entry is removed and the row's `status` becomes `"archived"` while the
row itself, its other fields, all other rows and all other clones are
left intact; repositories synced within the cutoff are never archived.
Hypotheses: usage exceeds the threshold, row ids are distinct (primary
key), and every stale row still has its clone on disk. -/
theorem cleanup_storage_amended (limitBytes : Nat) (threshold now : Int)
    (db : List RepoRec) (st : List (String × Nat))
    (husage : usageExceeds limitBytes threshold st = true)
    (hnodup : (db.map RepoRec.id).Nodup)
    (hclones : ∀ r ∈ db, staleOrNever now r = true →
      st.any (fun p => decide (p.1 = r.id)) = true) :
    cleanup_storage_if_needed limitBytes threshold now db st =
      (db.map (fun x =>
         if x.id ∈ (evictionCandidates now db).map RepoRec.id
         then { x with status := "archived" } else x),
       st.filter (fun p =>
         !decide (p.1 ∈ (evictionCandidates now db).map RepoRec.id)),
       (evictionCandidates now db).map RepoRec.id,
       decide ((evictionCandidates now db).map RepoRec.id ≠ [])) ∧
    ((evictionCandidates now db).map RepoRec.id).length ≤ 5 ∧
    (evictionCandidates now db).all (staleOrNever now) = true := by
  have hmemfilter : ∀ r ∈ evictionCandidates now db,
      r ∈ db.filter (staleOrNever now) := by
    intro r hr
    have h1 : r ∈ sortBySizeDesc (db.filter (staleOrNever now)) :=
      List.mem_of_mem_take hr
    exact (sortBySizeDesc_perm _).mem_iff.mp h1
  have hnodup_c : ((evictionCandidates now db).map RepoRec.id).Nodup := by
    have h1 : ((db.filter (staleOrNever now)).map RepoRec.id).Nodup := by
      have hsub := (List.filter_sublist (l := db) (p := staleOrNever now)).map
        RepoRec.id
      exact List.Nodup.sublist hsub hnodup
    have h2 : List.Perm
        ((sortBySizeDesc (db.filter (staleOrNever now))).map RepoRec.id)
        ((db.filter (staleOrNever now)).map RepoRec.id) :=
      (sortBySizeDesc_perm _).map RepoRec.id
    have h3 := h2.nodup_iff.mpr h1
    rw [evictionCandidates, List.map_take]
    exact List.Nodup.sublist (List.take_sublist 5 _) h3
  have hpres : ∀ r ∈ evictionCandidates now db,
      st.any (fun p => decide (p.1 = r.id)) = true := by
    intro r hr
    have h1 := hmemfilter r hr
    rw [List.mem_filter] at h1
    exact hclones r h1.1 h1.2
  refine ⟨?_, ?_, ?_⟩
  · rw [cleanup_storage_if_needed, husage]
    rw [if_neg (by simp)]
    rw [show List.take 5 (sortBySizeDesc (List.filter (staleOrNever now) db))
          = evictionCandidates now db from rfl]
    dsimp only
    rw [evictLoop_spec (evictionCandidates now db) db st hnodup_c hpres]
  · rw [List.length_map, evictionCandidates]
    exact le_trans (List.length_take_le 5 _) le_rfl
  · rw [List.all_eq_true]
    intro r hr
    have h1 := hmemfilter r hr
    rw [List.mem_filter] at h1
    exact h1.2

/-- Witness for the amended C2 on the demo database and storage. -/
theorem cleanup_storage_amended_witness :
    (cleanup_storage_if_needed 100 80 100 demoDb demoStorage =
      (demoDb.map (fun x =>
         if x.id ∈ (evictionCandidates 100 demoDb).map RepoRec.id
         then { x with status := "archived" } else x),
       demoStorage.filter (fun p =>
         !decide (p.1 ∈ (evictionCandidates 100 demoDb).map RepoRec.id)),
       (evictionCandidates 100 demoDb).map RepoRec.id,
       decide ((evictionCandidates 100 demoDb).map RepoRec.id ≠ []))) ∧
    ((evictionCandidates 100 demoDb).map RepoRec.id).length ≤ 5 ∧
    (evictionCandidates 100 demoDb).all (staleOrNever 100) = true :=
  cleanup_storage_amended 100 80 100 demoDb demoStorage
    (by decide) (by decide) (by decide)

/-! ### Import failure theorem -/

/-- C5.  For every import job whose clone step raises, the job row ends
with `status = "failed"`, a non-empty `error_message`, `completed_at`
set, and the repository table unchanged — in particular no `Repository`
row exists for the job's `repository_id` that did not exist before. -/
theorem import_failure_state (e : CloneError) (now : Int)
    (job : ImportJobRec) (repos : List RepositoryRec) :
    (import_repository_background (.error e) now job repos).1.status
      = "failed" ∧
    (∃ m,
      (import_repository_background (.error e) now job repos).1.error_message
        = some m ∧ m ≠ []) ∧
    (import_repository_background (.error e) now job repos).1.completed_at
      = some now ∧
    (import_repository_background (.error e) now job repos).2 = repos := by
  refine ⟨rfl, ⟨cloneErrorMessage e, rfl, ?_⟩, rfl, rfl⟩
  cases e <;> simp [cloneErrorMessage]